import Mathlib

/- Shallow embedding of the bern-rtos kernel core: the mutex lock protocol
(src/kernel/src/sync/mutex.rs), the bump allocator (src/kernel/src/alloc/bump.rs),
heap-backed stack construction (src/kernel/src/stack.rs), process registration
(src/kernel/src/exec/process.rs, src/kernel/src/kernel.rs), the scheduler's
ready/sleep/event queues and context-switch routing (src/kernel/src/sched.rs),
the intrusive list's sorted insertion (src/kernel/src/mem/linked_list.rs) and
the freelist heap (src/kernel/src/alloc/heap.rs).  Machine addresses and sizes
are modelled as Nat; priorities are their numeric value (0 is the highest,
P-1 the idle thread). -/

namespace BernRtos

/-- Embedding of Rust enum sync::Error (src/kernel/src/sync.rs). -/
inductive SyncError
  | wouldBlock
  | timeOut
  | poisoned
  | outOfMemory
deriving Repr, DecidableEq

/-- Embedding of Rust enum sched::event::Error (src/kernel/src/sched/event.rs). -/
inductive EventError
  | timeOut
  | invalidId
deriving Repr, DecidableEq

/-- Embedding of Rust enum alloc::allocator::AllocError. -/
inductive AllocError
  | outOfMemory
  | wrongAlignment
  | other
deriving Repr, DecidableEq

/- ===== Mutex (src/kernel/src/sync/mutex.rs) =====
The lock word is an AtomicBool.  compare_exchange(current, new) returns the
new contents of the word together with Ok(previous) when the exchange took
place and Err(previous) when it did not. -/

/-- AtomicBool::compare_exchange on the mutex lock word. -/
def compareExchange (lockState cur new : Bool) : Bool × Except Bool Bool :=
  if lockState = cur then (new, Except.ok lockState)
  else (lockState, Except.error lockState)

/-- Mutex::raw_lock: compare_exchange(false, true). -/
def rawLock (lockState : Bool) : Bool × Except Bool Bool :=
  compareExchange lockState false true

/-- Mutex::try_lock: Ok(guard) iff raw_lock succeeded, else Err(WouldBlock). -/
def mutexTryLock (lockState : Bool) : Bool × Except SyncError Unit :=
  match rawLock lockState with
  | (st, Except.ok _) => (st, Except.ok ())
  | (st, Except.error _) => (st, Except.error SyncError.wouldBlock)

/-- Mutex::lock(timeout).  `state1` is the contents of the lock word observed
by the initial raw_lock; on failure the thread performs event_await (whose
outcome is `awaitResult`); `state2` is the contents of the lock word when the
retry raw_lock runs (other threads may have changed the word in between).
The source discards the retry result: `self.raw_lock().ok();` then
unconditionally returns `Ok(MutexGuard::new(&self))`.  The returned value
is the final lock-word state and Ok () exactly when a guard is returned. -/
def mutexLock (state1 state2 : Bool) (awaitResult : Except EventError Unit) :
    Bool × Except SyncError Unit :=
  match rawLock state1 with
  | (st, Except.ok _) => (st, Except.ok ())
  | (_, Except.error _) =>
    match awaitResult with
    | Except.ok _ => ((rawLock state2).1, Except.ok ())
    | Except.error EventError.timeOut => (state2, Except.error SyncError.timeOut)
    | Except.error _ => (state2, Except.error SyncError.poisoned)

/- ===== Bump allocator (src/kernel/src/alloc/bump.rs) ===== -/

/-- Rust pointer::align_offset for a byte pointer: padding that makes
`p + padding` a multiple of `align` (align is a nonzero power of two in
every Layout). -/
def alignOffset (p align : Nat) : Nat :=
  if align = 0 then 0 else (align - p % align) % align

/-- Bump allocator state: arena bounds, the atomic head pointer `current`,
and the wastage counter. -/
structure Bump where
  startAddr : Nat
  endAddr : Nat
  current : Nat
  wastage : Nat
deriving Repr, DecidableEq

/-- Bump::capacity: end - start. -/
def Bump.capacity (b : Bump) : Nat := b.endAddr - b.startAddr

/-- Bump::usage: current - start. -/
def Bump.usage (b : Bump) : Nat := b.current - b.startAddr

/-- Bump::alloc.  The CAS loop is single-step here (no interference):
load head, compute padding, fail with OutOfMemory when
capacity - usage < size + padding, else advance the head by
size + padding and return old + padding. -/
def bumpAlloc (b : Bump) (size align : Nat) : Bump × Except AllocError Nat :=
  let old := b.current
  let padding := alignOffset old align
  if b.capacity - b.usage < size + padding then
    (b, Except.error AllocError.outOfMemory)
  else
    ({ b with current := old + (size + padding), wastage := b.wastage + padding },
      Except.ok (old + padding))

/-- Bump::dealloc: never moves the head, only counts the bytes as wastage. -/
def bumpDealloc (b : Bump) (size : Nat) : Bump :=
  { b with wastage := b.wastage + size }

/-- One call into the bump allocator. -/
inductive BumpOp
  | alloc (size align : Nat)
  | dealloc (size : Nat)
deriving Repr, DecidableEq

/-- Effect of one call on the allocator state. -/
def bumpStep (b : Bump) : BumpOp → Bump
  | BumpOp.alloc s a => (bumpAlloc b s a).1
  | BumpOp.dealloc s => bumpDealloc b s

/-- Effect of a sequence of calls on the allocator state. -/
def bumpRun (b : Bump) : List BumpOp → Bump
  | [] => b
  | op :: ops => bumpRun (bumpStep b op) ops

/- ===== Stack (src/kernel/src/stack.rs) ===== -/

/-- Stack management structure: bottom pointer, byte size, current top. -/
structure Stack where
  bottom : Nat
  size : Nat
  ptr : Nat
deriving Repr, DecidableEq

/-- Stack::new_on_heap(size).  The function begins with `assert_eq!(size, 0)`,
so any nonzero size panics (modelled as `none`); otherwise it allocates
(`allocPtr` is the address the global allocator returns) and sets the top
pointer to `ptr.offset(size - 1)`. -/
def newOnHeap (allocPtr : Nat) (size : Nat) : Option Stack :=
  if size = 0 then
    some { bottom := allocPtr, size := size, ptr := allocPtr + (size - 1) }
  else
    none

/- ===== Kernel lifecycle and Process::init (src/kernel/src/kernel.rs,
src/kernel/src/exec/process.rs) ===== -/

/-- Embedding of Rust enum kernel::State. -/
inductive KernelState
  | startup
  | running
deriving Repr, DecidableEq

/-- The kernel singleton state relevant to process registration: the
lifecycle state and the list of registered processes, identified by their
start address (Kernel::is_process_registered compares start addresses). -/
structure Kernel where
  state : KernelState
  processes : List Nat
deriving Repr, DecidableEq

/-- Embedding of Rust enum exec::process::ProcessError. -/
inductive ProcessError
  | notInit
  | alreadyInit
  | kernelAlreadyRunning
deriving Repr, DecidableEq

/-- Kernel::is_process_registered: scan the process list for an equal
start address. -/
def isProcessRegistered (k : Kernel) (startAddr : Nat) : Bool :=
  k.processes.any fun a => a == startAddr

/-- Process::init: return AlreadyInit when the process is registered,
otherwise copy the static image (no effect on this state), register the
process (push to the back of the kernel process list) and succeed.  The
function never inspects `Kernel.state`. -/
def processInit (k : Kernel) (startAddr : Nat) : Kernel × Except ProcessError Unit :=
  if isProcessRegistered k startAddr then
    (k, Except.error ProcessError.alreadyInit)
  else
    ({ k with processes := k.processes ++ [startAddr] }, Except.ok ())

/-- Kernel::start: transition the lifecycle state to Running. -/
def kernelStart (k : Kernel) : Kernel :=
  { k with state := KernelState.running }

/- ===== Scheduler data model (src/kernel/src/sched.rs,
src/kernel/src/exec/runnable.rs, src/kernel/src/sched/event.rs) ===== -/

/-- Embedding of Rust enum exec::runnable::Transition. -/
inductive Transition
  | none
  | sleeping
  | blocked
  | resuming
  | terminating
deriving Repr, DecidableEq

/-- Task control block (Runnable): id, numeric priority (0 is highest,
P-1 is the idle thread), next wake-up tick, transition tag, id of the
blocking event, and the saved stack pointer. -/
structure TCB where
  id : Nat
  priority : Nat
  nextWut : Nat
  transition : Transition
  blockingEvent : Option Nat
  stackPtr : Nat
deriving Repr, DecidableEq

/-- An event: its nonzero id and the list of pending (waiting) threads,
kept sorted by ascending numeric priority (descending logical priority). -/
structure Event where
  id : Nat
  pending : List TCB
deriving Repr, DecidableEq

/-- Scheduler state: the running thread, one ready queue per priority
(index = numeric priority), the sleep queue, the terminated queue and the
event list. -/
structure Scheduler where
  taskRunning : Option TCB
  tasksReady : List (List TCB)
  tasksSleeping : List TCB
  tasksTerminated : List TCB
  events : List Event
deriving Repr, DecidableEq

/-- LinkedList::insert_when: insert `x` exactly before the first node
matching the criteria, or push it to the back when no node matches
(src/kernel/src/mem/linked_list.rs). -/
def insertWhen (crit : α → α → Bool) (x : α) : List α → List α
  | [] => [x]
  | y :: ys => if crit x y then x :: y :: ys else y :: insertWhen crit x ys

/-- LinkedList::push_back on the ready queue of priority `i`. -/
def pushBackAt (qs : List (List TCB)) (i : Nat) (t : TCB) : List (List TCB) :=
  qs.set i (qs.getD i [] ++ [t])

/-- The ready pick loop shared by sched::start and switch_context: scan the
ready queues from priority 0 upward and pop the front of the first
non-empty queue; `none` when every queue is empty. -/
def popFirstReady : List (List TCB) → Option (TCB × List (List TCB))
  | [] => Option.none
  | [] :: qs => (popFirstReady qs).map fun p => (p.1, [] :: p.2)
  | (t :: ts) :: qs => some (t, ts :: qs)

/-- A ready-queue array is well formed when queue `i` holds only threads of
priority `i` (threads are enqueued at the index of their priority). -/
def wellFormedReady (qs : List (List TCB)) : Bool :=
  (List.range qs.length).all fun i => (qs.getD i []).all fun t => t.priority == i

/-- List.Pairwise formulation of an ascending sort on a Nat key. -/
def SortedByKey (key : α → Nat) (l : List α) : Prop :=
  List.Pairwise (fun a b => key a ≤ key b) l

/-- sched::start: pop the first ready thread, record it as running, and
return its stack pointer for the first dispatch; `none` when no thread is
ready. -/
def schedStart (s : Scheduler) : Option (Scheduler × Nat) :=
  (popFirstReady s.tasksReady).map fun p =>
    ({ s with tasksReady := p.2, taskRunning := some p.1 }, p.1.stackPtr)

/-- Insert the pausing thread into the pending list of its blocking event
(the list of the first event with the given id): before the first waiter of
numerically greater priority, i.e. before the first waiter of strictly
lower logical priority. -/
def setBlocked (events : List Event) (p : TCB) (eid : Nat) : List Event :=
  match events with
  | [] => []
  | e :: es =>
    if e.id = eid then
      { e with pending := insertWhen (fun a b => decide (a.priority < b.priority)) p e.pending } :: es
    else
      e :: setBlocked es p eid

/-- First phase of switch_context: put the running thread into its next
state.  If the saved stack pointer is 0 the thread overflowed its stack and
its transition is forced to Terminating (its stored stack pointer is left
alone); otherwise the stack pointer is stored.  The thread is then routed
by its transition tag; Resuming falls into the wildcard arm and the thread
is dropped.  `none` models the unwrap panics (no running thread, or a
Blocked thread without a blocking event). -/
def routePausing (s : Scheduler) (stackPtr : Nat) : Option Scheduler :=
  match s.taskRunning with
  | Option.none => Option.none
  | some pausing0 =>
    let prio := pausing0.priority
    let pausing :=
      if stackPtr = 0 then
        if pausing0.transition ≠ Transition.terminating then
          { pausing0 with transition := Transition.terminating }
        else pausing0
      else { pausing0 with stackPtr := stackPtr }
    let s0 := { s with taskRunning := Option.none }
    match pausing.transition with
    | Transition.none =>
      some { s0 with tasksReady := pushBackAt s0.tasksReady prio pausing }
    | Transition.sleeping =>
      let p := { pausing with transition := Transition.none }
      some { s0 with
        tasksSleeping := insertWhen (fun a b => decide (a.nextWut < b.nextWut)) p s0.tasksSleeping }
    | Transition.blocked =>
      match pausing.blockingEvent with
      | Option.none => Option.none
      | some eid =>
        let p := { pausing with transition := Transition.none }
        some { s0 with events := setBlocked s0.events p eid }
    | Transition.terminating =>
      let p := { pausing with transition := Transition.none }
      some { s0 with tasksTerminated := s0.tasksTerminated ++ [p] }
    | Transition.resuming => some s0

/-- switch_context: route the pausing thread, then pop the first ready
thread, record it as running and return its stack pointer.  `none` models
the panic when every ready queue is empty (the idle thread must never be
suspended). -/
def switchContext (s : Scheduler) (stackPtr : Nat) : Option (Scheduler × Nat) :=
  (routePausing s stackPtr).bind fun s1 =>
    (popFirstReady s1.tasksReady).map fun p =>
      ({ s1 with tasksReady := p.2, taskRunning := some p.1 }, p.1.stackPtr)

/- ===== Events: fire and await (src/kernel/src/sched.rs) ===== -/

/-- Result of sched::event_fire on the event list and ready queues:
the updated structures, whether a context switch was requested, and the
woken thread (the one the source passes to trace::task_ready_begin). -/
structure FireResult where
  events : List Event
  ready : List (List TCB)
  switch : Bool
  woken : Option TCB
deriving Repr, DecidableEq

/-- sched::event_fire(id): find the first event with the given id; if it
exists, pop the front of its pending list (if any) and push that thread to
the back of the ready queue of its priority; `switch` is set whenever the
event was found, and a context switch is then triggered. -/
def eventFire (events : List Event) (ready : List (List TCB)) (id : Nat) : FireResult :=
  match events with
  | [] => ⟨[], ready, false, Option.none⟩
  | e :: es =>
    if e.id = id then
      match e.pending with
      | [] => ⟨e :: es, ready, true, Option.none⟩
      | t :: ts =>
        ⟨{ e with pending := ts } :: es, pushBackAt ready t.priority t, true, some t⟩
    else
      let r := eventFire es ready id
      ⟨e :: r.events, r.ready, r.switch, r.woken⟩

/-- Fire the same event `k` times in a row, collecting the woken threads in
order. -/
def fireSeq (events : List Event) (ready : List (List TCB)) (id : Nat) :
    Nat → List Event × List (List TCB) × List TCB
  | 0 => (events, ready, [])
  | Nat.succ k =>
    let r := eventFire events ready id
    let rest := fireSeq r.events r.ready id k
    (rest.1, rest.2.1, r.woken.toList ++ rest.2.2)

/-- sched::event_await(id, _timeout): find the event with the given id
(InvalidId when absent), record it as the running thread's blocking event
and set the transition to Blocked.  The `_timeout` argument is never read
and the thread is not enqueued anywhere (the sleep queue in particular is
untouched); the context switch is triggered afterwards. -/
def schedEventAwait (events : List Event) (id : Nat) (_timeout : Nat) (running : TCB) :
    Except EventError TCB :=
  match events.find? (fun e => e.id == id) with
  | Option.none => Except.error EventError.invalidId
  | some e =>
    Except.ok { running with blockingEvent := some e.id, transition := Transition.blocked }

/-- Service::EventAwait in syscall_handler_impl: call sched::event_await,
then shadow the result with `Ok(())` and return that to the caller
(src/kernel/src/syscall.rs lines 279-286). -/
def syscallEventAwait (events : List Event) (id timeout : Nat) (running : TCB) :
    Except EventError Unit :=
  let _result := schedEventAwait events id timeout running
  let result : Except EventError Unit := Except.ok ()
  result

/- ===== sleep and tick_update (src/kernel/src/sched.rs,
src/kernel/src/exec/runnable.rs) ===== -/

/-- Runnable::sleep(ms): set the next wake-up time to the current tick plus
`ms`. -/
def runnableSleep (t : TCB) (now ms : Nat) : TCB :=
  { t with nextWut := now + ms }

/-- sched::sleep(ms): set the running thread's wake-up time and mark it
Sleeping (the context switch is triggered afterwards); `none` models the
unwrap panic when no thread is running. -/
def schedSleep (s : Scheduler) (now ms : Nat) : Option Scheduler :=
  s.taskRunning.map fun t =>
    { s with
      taskRunning := some ({ runnableSleep t now ms with transition := Transition.sleeping }) }

/-- The cursor loop of tick_update: walk the sleep queue from the front,
taking every thread whose next wake-up is at or before `now`, and abort at
the first later wake-up.  Returns the taken threads in order and the
remaining queue. -/
def tickMove (now : Nat) : List TCB → List TCB × List TCB
  | [] => ([], [])
  | t :: ts =>
    if t.nextWut ≤ now then
      let r := tickMove now ts
      (t :: r.1, r.2)
    else ([], t :: ts)

/-- Priority::MAX, the preemption bound used when no thread is running. -/
def priorityMAX : Nat := 255

/-- The preemption priority of tick_update: the running thread's priority,
or Priority::MAX when nothing is running. -/
def runningPriority (s : Scheduler) : Nat :=
  match s.taskRunning with
  | some t => t.priority
  | Option.none => priorityMAX

/-- sched::tick_update at tick `now`: move the due sleeping threads to the
back of their ready queues; request a context switch when one of them has a
numerically smaller (logically higher) priority than the running thread,
or - with the `time-slicing` cargo feature, which is on by default - when
the ready queue of the running thread's priority is non-empty afterwards
and that priority is not 0 (Priority::is_interrupt_handler).  Returns the
new state and whether a switch was requested. -/
def tickUpdate (timeSlicing : Bool) (s : Scheduler) (now : Nat) : Scheduler × Bool :=
  let preemptPriority := runningPriority s
  let moved := (tickMove now s.tasksSleeping).1
  let remaining := (tickMove now s.tasksSleeping).2
  let ready2 := moved.foldl (fun qs t => pushBackAt qs t.priority t) s.tasksReady
  let trigger :=
    moved.any (fun t => decide (t.priority < preemptPriority)) ||
      (timeSlicing && decide (0 < (ready2.getD preemptPriority []).length) &&
        !(preemptPriority == 0))
  ({ s with tasksSleeping := remaining, tasksReady := ready2 }, trigger)

/-- A sequence of tick updates at the given tick counts. -/
def tickSeq (timeSlicing : Bool) (s : Scheduler) : List Nat → Scheduler
  | [] => s
  | n :: ns => tickSeq timeSlicing (tickUpdate timeSlicing s n).1 ns

/- ===== Freelist heap (src/kernel/src/alloc/heap.rs) ===== -/

/-- MIN_FREE_SIZE = size_of Node<Free>: two atomic pointers plus a usize
size field, 12 bytes on the 32-bit Cortex-M targets. -/
def MIN_FREE_SIZE : Nat := 12

/-- A free block of the heap: start address and byte size. -/
structure FreeBlock where
  addr : Nat
  size : Nat
deriving Repr, DecidableEq

/-- Heap::insert_free: walk the address-sorted free list to the first block
of strictly greater address; when that block starts exactly at the end of
the freed block, join it to the right (absorb its size and remove it);
insert the (possibly joined) block there, or at the end of the list when
every block has a smaller or equal address. -/
def insertFree (b : FreeBlock) : List FreeBlock → List FreeBlock
  | [] => [b]
  | c :: rest =>
    if b.addr < c.addr then
      if c.addr = b.addr + b.size then ⟨b.addr, b.size + c.size⟩ :: rest
      else b :: c :: rest
    else c :: insertFree b rest

/-- The fit test of Heap::alloc: a free block is taken when it matches the
request exactly or exceeds it by at least a free node
(node.size == size_requested || node.size >= size_requested + MIN_FREE_SIZE). -/
def fitsBlock (szReq : Nat) (c : FreeBlock) : Bool :=
  c.size == szReq || decide (szReq + MIN_FREE_SIZE ≤ c.size)

/-- First-fit scan of Heap::alloc: the blocks before the hit, the hit, and
the blocks after it; `none` when no block fits. -/
def findFit (szReq : Nat) :
    List FreeBlock → Option (List FreeBlock × FreeBlock × List FreeBlock)
  | [] => Option.none
  | c :: rest =>
    if fitsBlock szReq c then some ([], c, rest)
    else (findFit szReq rest).map fun pcs => (c :: pcs.1, pcs.2.1, pcs.2.2)

/-- The minimum-adjusted request of Heap::alloc and Heap::dealloc: pad the
layout size up to MIN_FREE_SIZE so that a free node fits at deallocation. -/
def reqSize (layoutSize : Nat) : Nat :=
  if layoutSize < MIN_FREE_SIZE then MIN_FREE_SIZE else layoutSize

/-- Outcome of Heap::alloc.  `loopDetected` models the source panic
reachable when the free list is non-empty and no block fits. -/
inductive HeapResult
  | ok (addr : Nat) (free : List FreeBlock)
  | outOfMemory
  | errOther
  | loopDetected
deriving Repr, DecidableEq

/-- Heap::alloc(layout): reject empty layouts, adjust the request to the
minimum size, take the first fitting block, split off and reinsert the
remainder when the block is larger than the request, and return the block's
start address. -/
def heapAlloc (free : List FreeBlock) (layoutSize : Nat) : HeapResult :=
  if layoutSize = 0 then HeapResult.errOther
  else
    let szReq := reqSize layoutSize
    match findFit szReq free with
    | some (pre, c, suf) =>
      let rest := pre ++ suf
      if szReq < c.size then
        HeapResult.ok c.addr (insertFree ⟨c.addr + szReq, c.size - szReq⟩ rest)
      else HeapResult.ok c.addr rest
    | Option.none => if free.isEmpty then HeapResult.outOfMemory else HeapResult.loopDetected

/-- Heap::dealloc: pad the layout size up to the minimum and insert the
block into the address-sorted free list. -/
def heapDealloc (free : List FreeBlock) (addr : Nat) (layoutSize : Nat) : List FreeBlock :=
  insertFree ⟨addr, reqSize layoutSize⟩ free

/- ================================================================
   Theorems
   ================================================================ -/

/- ===== C1: mutex mutual exclusion (code bug) ===== -/

/-- C1.  The claim states that Mutex::lock never returns a guard unless its
own compare-exchange from false to true succeeded.  The code discards the
retry result (`self.raw_lock().ok()` after event_await) and returns a guard
unconditionally: with the lock word owned by another thread at both the
initial try (`state1 = true`) and the retry (`state2 = true`), lock still
returns Ok(guard) even though both compare-exchanges failed - meanwhile a
try_lock by a third thread on the free word (`false`) also obtains a guard,
so two guards can be alive at once and mutual exclusion is broken. -/
theorem c1_mutex_guard_without_cas :
    mutexLock true true (Except.ok ()) = (true, Except.ok ()) ∧
    (rawLock true).2 = Except.error true ∧
    mutexTryLock false = (true, Except.ok ()) := by
  refine ⟨?_, ?_, ?_⟩ <;> rfl

/- ===== C7: Process::init (corrected) ===== -/

/-- C7 counterexample.  With the kernel already in the Running state and a
process that was never initialized, Process::init succeeds instead of
returning KernelAlreadyRunning - the function never inspects the kernel
lifecycle state, so the claim's second half is false. -/
theorem c7_counterexample :
    (processInit (kernelStart { state := KernelState.startup, processes := [] }) 4096).2 =
      Except.ok () ∧
    (processInit (kernelStart { state := KernelState.startup, processes := [] }) 4096).2 ≠
      Except.error ProcessError.kernelAlreadyRunning := by
  refine ⟨rfl, ?_⟩
  intro h
  exact Except.noConfusion h

/-- C7 amended.  A second init of an already-registered process fails with
AlreadyInit and leaves the kernel state unchanged; but Process::init never
returns KernelAlreadyRunning (it does not examine the kernel lifecycle
state), so init after Kernel::start succeeds rather than failing. -/
theorem c7_process_init (k k2 : Kernel) (a : Nat)
    (h : processInit k a = (k2, Except.ok ())) :
    processInit k2 a = (k2, Except.error ProcessError.alreadyInit) ∧
    k2.state = k.state ∧
    (∀ k3 : Kernel, ∀ a3 : Nat,
      (processInit k3 a3).2 ≠ Except.error ProcessError.kernelAlreadyRunning) ∧
    (∀ k3 : Kernel, ∀ a3 : Nat, isProcessRegistered k3 a3 = true →
      processInit k3 a3 = (k3, Except.error ProcessError.alreadyInit)) := by
  have hreg : isProcessRegistered k a = false := by
    by_contra hc
    rw [Bool.not_eq_false] at hc
    simp [processInit, hc] at h
  have hk2 : k2 = { k with processes := k.processes ++ [a] } := by
    simp [processInit, hreg] at h
    exact h.symm
  have hreg2 : isProcessRegistered k2 a = true := by
    subst hk2
    simp [isProcessRegistered, List.any_eq_true]
  refine ⟨by simp [processInit, hreg2], by rw [hk2], ?_, ?_⟩
  · intro k3 a3
    simp only [processInit]
    split <;> simp
  · intro k3 a3 h3
    simp [processInit, h3]

/-- C7 witness: a concrete first init followed by a second init. -/
theorem c7_process_init_witness :
    processInit { state := KernelState.startup, processes := [4096] } 4096 =
      ({ state := KernelState.startup, processes := [4096] },
        Except.error ProcessError.alreadyInit) :=
  (c7_process_init { state := KernelState.startup, processes := [] }
    { state := KernelState.startup, processes := [4096] } 4096 (by rfl)).1

/- ===== C9: bump allocator (confirmed) ===== -/

/-- The bump head pointer never moves backwards in one call. -/
theorem bumpStep_current_le (b : Bump) (op : BumpOp) :
    b.current ≤ (bumpStep b op).current := by
  cases op with
  | alloc s a =>
    simp only [bumpStep, bumpAlloc]
    split
    · exact Nat.le_refl _
    · exact Nat.le_add_right _ _
  | dealloc s => exact Nat.le_refl _

/-- One bump call never changes the arena start. -/
theorem bumpStep_startAddr (b : Bump) (op : BumpOp) :
    (bumpStep b op).startAddr = b.startAddr := by
  cases op with
  | alloc s a =>
    simp only [bumpStep, bumpAlloc]
    split <;> rfl
  | dealloc s => rfl

/-- The bump head pointer never moves backwards over a call sequence. -/
theorem bumpRun_current_le (b : Bump) (ops : List BumpOp) :
    b.current ≤ (bumpRun b ops).current := by
  induction ops generalizing b with
  | nil => exact Nat.le_refl _
  | cons op ops ih =>
    exact Nat.le_trans (bumpStep_current_le b op) (ih (bumpStep b op))

/-- The arena start never changes over a call sequence. -/
theorem bumpRun_startAddr (b : Bump) (ops : List BumpOp) :
    (bumpRun b ops).startAddr = b.startAddr := by
  induction ops generalizing b with
  | nil => rfl
  | cons op ops ih =>
    calc (bumpRun (bumpStep b op) ops).startAddr
        = (bumpStep b op).startAddr := ih (bumpStep b op)
      _ = b.startAddr := bumpStep_startAddr b op

/-- C9.  Bump::alloc fails with OutOfMemory exactly when the padded request
does not fit between the head and the arena end (and then changes nothing);
otherwise it returns the old head advanced by the alignment padding and
moves the head by padding plus size, counting the padding as wastage.
Bump::dealloc never moves the head and only increments the wastage counter.
Consequently usage is non-decreasing over every sequence of calls. -/
theorem c9_bump_alloc (b : Bump) (size align : Nat)
    (hs : b.startAddr ≤ b.current) (he : b.current ≤ b.endAddr) :
    ((bumpAlloc b size align).2 = Except.error AllocError.outOfMemory ↔
      b.endAddr < b.current + (size + alignOffset b.current align)) ∧
    ((bumpAlloc b size align).2 = Except.error AllocError.outOfMemory →
      (bumpAlloc b size align).1 = b) ∧
    (¬ b.endAddr < b.current + (size + alignOffset b.current align) →
      bumpAlloc b size align =
        ({ b with current := b.current + (size + alignOffset b.current align),
                  wastage := b.wastage + alignOffset b.current align },
          Except.ok (b.current + alignOffset b.current align))) ∧
    (∀ s : Nat, (bumpDealloc b s).current = b.current ∧
      (bumpDealloc b s).wastage = b.wastage + s) ∧
    (∀ ops : List BumpOp, b.usage ≤ (bumpRun b ops).usage) := by
  have hcap : b.capacity - b.usage = b.endAddr - b.current := by
    simp only [Bump.capacity, Bump.usage]
    omega
  refine ⟨?_, ?_, ?_, fun s => ⟨rfl, rfl⟩, ?_⟩
  · simp only [bumpAlloc, hcap]
    split
    · rename_i hlt
      simp only [true_iff]
      omega
    · rename_i hge
      simp only [reduceCtorEq, false_iff]
      omega
  · simp only [bumpAlloc, hcap]
    split
    · intro _; rfl
    · intro h; exact absurd h (by simp)
  · intro hfit
    simp only [bumpAlloc, hcap]
    split
    · rename_i hlt
      exfalso
      omega
    · rfl
  · intro ops
    simp only [Bump.usage]
    rw [bumpRun_startAddr]
    exact Nat.sub_le_sub_right (bumpRun_current_le b ops) _

/-- C9 witness: a concrete arena and allocation. -/
theorem c9_bump_alloc_witness :
    (bumpAlloc { startAddr := 0, endAddr := 128, current := 2, wastage := 0 } 8 4).2 =
      Except.ok 4 := by
  have h := (c9_bump_alloc { startAddr := 0, endAddr := 128, current := 2, wastage := 0 }
    8 4 (by decide) (by decide)).2.2.1 (by decide)
  rw [h]
  rfl

/- ===== C10: Stack::new_on_heap (confirmed) ===== -/

/-- C10.  Stack::new_on_heap starts with `assert_eq!(size, 0)`, so every
call with a nonzero size panics and no heap-backed stack of nonzero size
can be constructed through this interface. -/
theorem c10_new_on_heap_panics (allocPtr size : Nat) (h : size ≠ 0) :
    newOnHeap allocPtr size = Option.none := by
  simp [newOnHeap, h]

/-- C10 witness: a 512-byte request panics. -/
theorem c10_new_on_heap_panics_witness : newOnHeap 4096 512 = Option.none :=
  c10_new_on_heap_panics 4096 512 (by decide)

/- ===== C2: ready selection (confirmed) ===== -/

/-- The ready pick pops the front of the first non-empty queue: there is an
index `k` such that every queue below `k` is empty, queue `k` starts with
the picked thread, and the rest of queue `k` stays in place. -/
theorem popFirstReady_spec (qs : List (List TCB)) (t : TCB) (qs' : List (List TCB))
    (h : popFirstReady qs = some (t, qs')) :
    ∃ k ts, (∀ j, j < k → qs.getD j [] = []) ∧ qs.getD k [] = t :: ts ∧
      qs' = qs.set k ts := by
  induction qs generalizing qs' with
  | nil => simp [popFirstReady] at h
  | cons q rest ih =>
    cases q with
    | nil =>
      simp only [popFirstReady] at h
      cases hrest : popFirstReady rest with
      | none => rw [hrest] at h; simp at h
      | some p =>
        obtain ⟨t1, qs1⟩ := p
        rw [hrest] at h
        simp only [Option.map_some', Option.some.injEq, Prod.mk.injEq] at h
        obtain ⟨h1, h2⟩ := h
        subst h1
        obtain ⟨k, ts, hempty, hk, hset⟩ := ih qs1 hrest
        refine ⟨k + 1, ts, ?_, ?_, ?_⟩
        · intro j hj
          cases j with
          | zero => rfl
          | succ j => exact hempty j (Nat.lt_of_succ_lt_succ hj)
        · exact hk
        · rw [← h2, hset]; rfl
    | cons t0 ts0 =>
      simp only [popFirstReady, Option.some.injEq, Prod.mk.injEq] at h
      obtain ⟨h1, h2⟩ := h
      subst h1
      exact ⟨0, ts0, fun j hj => absurd hj (Nat.not_lt_zero j), rfl, h2.symm⟩

/-- C2.  Every ready pick (the initial pick of sched::start and every pick
inside switch_context, both of which run popFirstReady on the ready-queue
array) takes the front of the first non-empty queue scanning from
priority 0 upward; with queues holding only threads of their own priority,
the picked thread's priority value is at most the priority value of every
thread in any ready queue, and the idle priority P-1 is picked only when
every other ready queue is empty. -/
theorem c2_ready_pick (qs : List (List TCB)) (t : TCB) (qs' : List (List TCB))
    (hwf : wellFormedReady qs = true)
    (h : popFirstReady qs = some (t, qs')) :
    (∀ i : Nat, ∀ u ∈ qs.getD i [], t.priority ≤ u.priority) ∧
    (t.priority = qs.length - 1 →
      ∀ i : Nat, i < qs.length - 1 → qs.getD i [] = []) := by
  obtain ⟨k, ts, hempty, hk, _⟩ := popFirstReady_spec qs t qs' h
  simp only [wellFormedReady, List.all_eq_true, List.mem_range, beq_iff_eq] at hwf
  have hklen : k < qs.length := by
    by_contra hge
    push_neg at hge
    rw [List.getD_eq_default _ _ hge] at hk
    exact List.noConfusion hk
  have htk : t.priority = k := by
    have hmem : t ∈ qs.getD k [] := by rw [hk]; exact List.mem_cons_self t ts
    exact hwf k hklen t hmem
  constructor
  · intro i u hu
    have hilen : i < qs.length := by
      by_contra hge
      push_neg at hge
      rw [List.getD_eq_default _ _ hge] at hu
      exact absurd hu (List.not_mem_nil u)
    have hui : u.priority = i := hwf i hilen u hu
    have hki : k ≤ i := by
      by_contra hlt
      push_neg at hlt
      rw [hempty i hlt] at hu
      exact absurd hu (List.not_mem_nil u)
    rw [htk, hui]
    exact hki
  · intro hidle i hi
    have : k = qs.length - 1 := by rw [← htk, hidle]
    exact hempty i (by omega)

/-- C2 witness: three ready queues, the priority-1 thread is picked over
the priority-2 thread. -/
theorem c2_ready_pick_witness :
    (⟨1, 1, 0, Transition.none, Option.none, 10⟩ : TCB).priority ≤
      (⟨2, 2, 0, Transition.none, Option.none, 20⟩ : TCB).priority :=
  (c2_ready_pick
    [[], [⟨1, 1, 0, Transition.none, Option.none, 10⟩],
      [⟨2, 2, 0, Transition.none, Option.none, 20⟩]]
    ⟨1, 1, 0, Transition.none, Option.none, 10⟩
    [[], [], [⟨2, 2, 0, Transition.none, Option.none, 20⟩]]
    (by decide) (by decide)).1 2
    ⟨2, 2, 0, Transition.none, Option.none, 20⟩ (by decide)

/- ===== C4: event-await syscall (code bug) ===== -/

/-- C4.  sched::event_await does return InvalidId when no event carries the
requested id, but the EventAwait arm of syscall_handler_impl shadows that
result with `Ok(())` before encoding the return code, so the caller always
receives Ok; moreover the `_timeout` parameter of sched::event_await is
never read (the thread is put on the event's waiter list only, never on the
sleep queue), so the result of event_await is independent of the timeout
argument and a TimeOut outcome is impossible. -/
theorem c4_event_await_result_discarded :
    schedEventAwait [] 1 1000 ⟨7, 1, 0, Transition.none, Option.none, 0⟩ =
      Except.error EventError.invalidId ∧
    syscallEventAwait [] 1 1000 ⟨7, 1, 0, Transition.none, Option.none, 0⟩ =
      Except.ok () ∧
    (∀ events : List Event, ∀ id ta tb : Nat, ∀ running : TCB,
      schedEventAwait events id ta running = schedEventAwait events id tb running) ∧
    (∀ events : List Event, ∀ id timeout : Nat, ∀ running : TCB,
      syscallEventAwait events id timeout running = Except.ok ()) := by
  refine ⟨rfl, rfl, fun _ _ _ _ _ => rfl, fun _ _ _ _ => rfl⟩

/- ===== C3: event_fire (corrected) ===== -/

/-- C3 counterexample.  Firing a registered event whose waiter list is
empty wakes nobody, yet event_fire still requests a context switch (the
`switch` flag is set whenever the event id is found, independent of any
waiter's priority), contradicting the claim that a switch is requested if
and only if the woken waiter's priority is above the running thread's. -/
theorem c3_counterexample :
    (eventFire [⟨1, []⟩] [[], []] 1).switch = true ∧
    (eventFire [⟨1, []⟩] [[], []] 1).woken = Option.none ∧
    (eventFire [⟨1, []⟩] [[], []] 1).ready = [[], []] := by
  refine ⟨rfl, rfl, rfl⟩

/-- event_fire requests a switch exactly when some event has the id. -/
theorem eventFire_switch (events : List Event) (ready : List (List TCB)) (id : Nat) :
    (eventFire events ready id).switch = events.any fun e => e.id == id := by
  induction events generalizing ready with
  | nil => rfl
  | cons e es ih =>
    by_cases he : e.id = id
    · cases hp : e.pending <;> simp [eventFire, he, hp]
    · simp [eventFire, he, ih]

/-- event_fire acts on the first event with the requested id: it pops the
front waiter, pushes it to the back of the ready queue of its priority and
reports it woken; an empty waiter list wakes nobody. -/
theorem eventFire_found (pre : List Event) (e : Event) (suf : List Event)
    (ready : List (List TCB)) (id : Nat)
    (hpre : ∀ e' ∈ pre, e'.id ≠ id) (he : e.id = id) :
    eventFire (pre ++ e :: suf) ready id =
      match e.pending with
      | [] => ⟨pre ++ e :: suf, ready, true, Option.none⟩
      | t :: ts =>
        ⟨pre ++ { e with pending := ts } :: suf,
         pushBackAt ready t.priority t, true, some t⟩ := by
  induction pre generalizing ready with
  | nil =>
    cases hp : e.pending with
    | nil => simp [eventFire, he, hp]
    | cons t ts => simp [eventFire, he, hp]
  | cons e0 pre ih =>
    have h0 : e0.id ≠ id := hpre e0 (List.mem_cons_self e0 pre)
    have hpre' : ∀ e' ∈ pre, e'.id ≠ id := fun e' h' =>
      hpre e' (List.mem_cons_of_mem e0 h')
    cases hp : e.pending with
    | nil =>
      simp only [List.cons_append, eventFire, if_neg h0, List.append_eq]
      rw [ih ready hpre']
      simp [hp]
    | cons t ts =>
      simp only [List.cons_append, eventFire, if_neg h0, List.append_eq]
      rw [ih ready hpre']
      simp [hp]

/-- Repeated fires wake the waiter list front to back: after `k` fires the
woken threads are exactly the first `k` waiters, in list order. -/
theorem fireSeq_take (pre : List Event) (suf : List Event) (id : Nat) (k : Nat)
    (hpre : ∀ e' ∈ pre, e'.id ≠ id) :
    ∀ (e : Event) (ready : List (List TCB)), e.id = id → k ≤ e.pending.length →
      (fireSeq (pre ++ e :: suf) ready id k).2.2 = e.pending.take k := by
  induction k with
  | zero => intro e ready he hk; simp [fireSeq]
  | succ k ih =>
    intro e ready he hk
    cases hp : e.pending with
    | nil => rw [hp] at hk; exact absurd hk (by simp)
    | cons t ts =>
      have hfire := eventFire_found pre e suf ready id hpre he
      rw [hp] at hfire
      have hfire2 : eventFire (pre ++ e :: suf) ready id =
          ⟨pre ++ { e with pending := ts } :: suf,
           pushBackAt ready t.priority t, true, some t⟩ := by
        rw [hfire]
      have ih' := ih ({ e with pending := ts }) (pushBackAt ready t.priority t) he
        (by rw [hp] at hk; simpa using Nat.le_of_succ_le_succ hk)
      simp only [fireSeq, hfire2]
      simp only at ih'
      rw [ih']
      simp

/-- C3 amended.  Firing an event with waiters pops exactly the front waiter
and pushes it to the back of the ready queue of its priority; but a context
switch is requested exactly when the event id is registered, regardless of
the woken waiter's priority (and even when nobody is woken).  Repeated
fires wake the waiters front to back, so with the waiter list sorted by
ascending numeric priority (descending logical priority, FIFO ties) they
wake in that order. -/
theorem c3_event_fire (pre : List Event) (e : Event) (suf : List Event)
    (ready : List (List TCB)) (id k : Nat) (t : TCB) (ts : List TCB)
    (hpre : ∀ e' ∈ pre, e'.id ≠ id) (he : e.id = id) (hp : e.pending = t :: ts)
    (hk : k ≤ e.pending.length) :
    eventFire (pre ++ e :: suf) ready id =
      ⟨pre ++ { e with pending := ts } :: suf,
       pushBackAt ready t.priority t, true, some t⟩ ∧
    (∀ events : List Event, ∀ rd : List (List TCB), ∀ i : Nat,
      (eventFire events rd i).switch = events.any fun e2 => e2.id == i) ∧
    (fireSeq (pre ++ e :: suf) ready id k).2.2 = e.pending.take k ∧
    (SortedByKey (fun u => u.priority) e.pending →
      SortedByKey (fun u => u.priority) ((fireSeq (pre ++ e :: suf) ready id k).2.2)) := by
  refine ⟨?_, eventFire_switch, fireSeq_take pre suf id k hpre e ready he hk, ?_⟩
  · have hfire := eventFire_found pre e suf ready id hpre he
    rw [hp] at hfire
    exact hfire
  · intro hsorted
    rw [fireSeq_take pre suf id k hpre e ready he hk]
    exact List.Pairwise.sublist (List.take_sublist k e.pending) hsorted

/-- C3 witness: two waiters of priorities 1 and 2; two fires wake them in
that order. -/
theorem c3_event_fire_witness :
    (fireSeq [⟨9, [⟨1, 1, 0, Transition.none, some 9, 0⟩,
                   ⟨2, 2, 0, Transition.none, some 9, 0⟩]⟩] [[], [], []] 9 2).2.2 =
      [⟨1, 1, 0, Transition.none, some 9, 0⟩, ⟨2, 2, 0, Transition.none, some 9, 0⟩] :=
  (c3_event_fire [] ⟨9, [⟨1, 1, 0, Transition.none, some 9, 0⟩,
      ⟨2, 2, 0, Transition.none, some 9, 0⟩]⟩ [] [[], [], []] 9 2
    ⟨1, 1, 0, Transition.none, some 9, 0⟩ [⟨2, 2, 0, Transition.none, some 9, 0⟩]
    (fun e' h' => absurd h' (List.not_mem_nil e')) rfl rfl (by decide)).2.2.1

/- ===== C5: switch_context routing (confirmed) ===== -/

/-- insert_when places the node exactly after the longest prefix of
non-matching nodes: before the first node matched by the criteria, at the
back when none matches. -/
theorem insertWhen_eq (crit : α → α → Bool) (x : α) (l : List α) :
    insertWhen crit x l =
      l.takeWhile (fun y => !crit x y) ++ x :: l.dropWhile (fun y => !crit x y) := by
  induction l with
  | nil => rfl
  | cons y ys ih =>
    by_cases h : crit x y
    · simp [insertWhen, h, List.takeWhile_cons, List.dropWhile_cons]
    · simp [insertWhen, h, List.takeWhile_cons, List.dropWhile_cons, ih]

/-- Membership in an insert_when result. -/
theorem mem_insertWhen (crit : α → α → Bool) (x z : α) (l : List α) :
    z ∈ insertWhen crit x l ↔ z = x ∨ z ∈ l := by
  induction l with
  | nil => simp [insertWhen]
  | cons y ys ih =>
    by_cases h : crit x y
    · simp only [insertWhen, h, if_true, List.mem_cons]
    · simp only [insertWhen, h, if_false, Bool.false_eq_true, List.mem_cons, ih]
      tauto

/-- Inserting before the first strictly-greater key preserves an ascending
sort (equal keys are passed over, so ties keep insertion order). -/
theorem sortedByKey_insertWhen (key : α → Nat) (x : α) (l : List α)
    (h : SortedByKey key l) :
    SortedByKey key (insertWhen (fun a b => decide (key a < key b)) x l) := by
  induction l with
  | nil => exact List.pairwise_singleton _ _
  | cons y ys ih =>
    rw [SortedByKey, List.pairwise_cons] at h
    obtain ⟨hy, hys⟩ := h
    by_cases hc : key x < key y
    · have : (fun a b => decide (key a < key b)) x y = true := by simp [hc]
      simp only [insertWhen, this, if_true]
      rw [SortedByKey, List.pairwise_cons]
      refine ⟨?_, ?_⟩
      · intro z hz
        rcases List.mem_cons.mp hz with hz | hz
        · rw [hz]; exact Nat.le_of_lt hc
        · exact Nat.le_trans (Nat.le_of_lt hc) (hy z hz)
      · rw [List.pairwise_cons]
        exact ⟨hy, hys⟩
    · have : (fun a b => decide (key a < key b)) x y = false := by simp [hc]
      simp only [insertWhen, this, Bool.false_eq_true, if_false]
      rw [SortedByKey, List.pairwise_cons]
      refine ⟨?_, ih hys⟩
      intro z hz
      rcases (mem_insertWhen _ x z ys).mp hz with hz | hz
      · rw [hz]; exact Nat.le_of_not_lt hc
      · exact hy z hz

/-- The Blocked route updates the pending list of the first event with the
blocking id and leaves every other event alone. -/
theorem setBlocked_found (pre : List Event) (e : Event) (suf : List Event)
    (p : TCB) (eid : Nat)
    (hpre : ∀ e' ∈ pre, e'.id ≠ eid) (he : e.id = eid) :
    setBlocked (pre ++ e :: suf) p eid =
      pre ++ { e with
               pending := insertWhen (fun a b => decide (a.priority < b.priority)) p e.pending
             } :: suf := by
  induction pre with
  | nil => simp [setBlocked, he]
  | cons e0 pre ih =>
    have h0 : e0.id ≠ eid := hpre e0 (List.mem_cons_self e0 pre)
    simp [setBlocked, h0, ih (fun e' h' => hpre e' (List.mem_cons_of_mem e0 h'))]

/-- C5.  switch_context routes the paused thread by its transition tag:
with sp = 0 the transition is forced to Terminating and the thread lands at
the back of the terminated queue with its stored stack pointer untouched;
with sp ≠ 0 the stack pointer is stored and the thread goes to the back of
its priority's ready queue (None), into the sleep queue before the first
strictly-later wake-up (Sleeping; the queue stays sorted ascending with
FIFO ties), into its blocking event's waiter list before the first waiter
of strictly lower logical priority (Blocked; the list stays sorted by
ascending numeric priority with FIFO ties), or to the back of the
terminated queue (Terminating), the tag being cleared in the last three
cases. -/
theorem c5_switch_context_routing (s : Scheduler) (p : TCB) (sp : Nat)
    (hrun : s.taskRunning = some p) :
    (sp = 0 → routePausing s sp = some
      { s with
        taskRunning := Option.none,
        tasksTerminated := s.tasksTerminated ++ [{ p with transition := Transition.none }] }) ∧
    (sp ≠ 0 → p.transition = Transition.none → routePausing s sp = some
      { s with
        taskRunning := Option.none,
        tasksReady := pushBackAt s.tasksReady p.priority { p with stackPtr := sp } }) ∧
    (sp ≠ 0 → p.transition = Transition.sleeping →
      routePausing s sp = some
        { s with
          taskRunning := Option.none,
          tasksSleeping := insertWhen (fun a b => decide (a.nextWut < b.nextWut)) { p with transition := Transition.none, stackPtr := sp } s.tasksSleeping } ∧
      insertWhen (fun a b => decide (a.nextWut < b.nextWut))
          { p with transition := Transition.none, stackPtr := sp } s.tasksSleeping =
        s.tasksSleeping.takeWhile (fun y => !decide (p.nextWut < y.nextWut)) ++ { p with transition := Transition.none, stackPtr := sp } :: s.tasksSleeping.dropWhile (fun y => !decide (p.nextWut < y.nextWut)) ∧
      (SortedByKey (fun u => u.nextWut) s.tasksSleeping →
        SortedByKey (fun u => u.nextWut)
          (insertWhen (fun a b => decide (a.nextWut < b.nextWut))
            { p with transition := Transition.none, stackPtr := sp } s.tasksSleeping))) ∧
    (∀ eid : Nat, ∀ pre : List Event, ∀ e : Event, ∀ suf : List Event,
      sp ≠ 0 → p.transition = Transition.blocked → p.blockingEvent = some eid →
      s.events = pre ++ e :: suf → (∀ e' ∈ pre, e'.id ≠ eid) → e.id = eid →
      routePausing s sp = some
        { s with
          taskRunning := Option.none,
          events := pre ++ { e with pending := insertWhen (fun a b => decide (a.priority < b.priority)) { p with transition := Transition.none, stackPtr := sp } e.pending } :: suf } ∧
      insertWhen (fun a b => decide (a.priority < b.priority))
          { p with transition := Transition.none, stackPtr := sp } e.pending =
        e.pending.takeWhile (fun y => !decide (p.priority < y.priority)) ++ { p with transition := Transition.none, stackPtr := sp } :: e.pending.dropWhile (fun y => !decide (p.priority < y.priority)) ∧
      (SortedByKey (fun u => u.priority) e.pending →
        SortedByKey (fun u => u.priority)
          (insertWhen (fun a b => decide (a.priority < b.priority))
            { p with transition := Transition.none, stackPtr := sp } e.pending))) ∧
    (sp ≠ 0 → p.transition = Transition.terminating →
      routePausing s sp = some
        { s with
          taskRunning := Option.none,
          tasksTerminated := s.tasksTerminated ++ [{ p with transition := Transition.none, stackPtr := sp }] }) := by
  refine ⟨?_, ?_, ?_, ?_, ?_⟩
  · intro hsp
    subst hsp
    by_cases hterm : p.transition = Transition.terminating
    · simp [routePausing, hrun, hterm]
    · simp [routePausing, hrun, hterm]
  · intro hsp htr
    simp [routePausing, hrun, hsp, htr]
  · intro hsp htr
    refine ⟨?_, insertWhen_eq _ _ _, sortedByKey_insertWhen (fun u => u.nextWut) _ s.tasksSleeping⟩
    simp [routePausing, hrun, hsp, htr]
  · intro eid pre e suf hsp htr hbe hev hpre he
    refine ⟨?_, insertWhen_eq _ _ _, sortedByKey_insertWhen (fun u => u.priority) _ e.pending⟩
    have hset := setBlocked_found pre e suf
      { p with transition := Transition.none, stackPtr := sp } eid hpre he
    rw [hbe] at hset
    rw [insertWhen_eq] at hset
    simp [routePausing, hrun, hsp, htr, hbe, hev, hset, insertWhen_eq]
  · intro hsp htr
    simp [routePausing, hrun, hsp, htr]

/-- C5 witness: a stack-overflow report (sp = 0) terminates the running
thread, leaving its stored stack pointer untouched. -/
theorem c5_switch_context_routing_witness :
    routePausing
      { taskRunning := some ⟨3, 1, 0, Transition.none, Option.none, 640⟩,
        tasksReady := [[], []], tasksSleeping := [], tasksTerminated := [], events := [] } 0 =
      some
        { taskRunning := Option.none,
          tasksReady := [[], []], tasksSleeping := [],
          tasksTerminated := [⟨3, 1, 0, Transition.none, Option.none, 640⟩], events := [] } :=
  (c5_switch_context_routing
    { taskRunning := some ⟨3, 1, 0, Transition.none, Option.none, 640⟩,
      tasksReady := [[], []], tasksSleeping := [], tasksTerminated := [], events := [] }
    ⟨3, 1, 0, Transition.none, Option.none, 640⟩ 0 rfl).1 rfl

/- ===== C6: sleep and tick_update (corrected) ===== -/

/-- C6 counterexample.  With time-slicing enabled (the crate's default
feature set), a tick on a state with an empty sleep queue - so no sleeping
thread is woken at all - still requests a context switch because another
thread of the running thread's priority is ready; this contradicts the
claim that preemption is requested only if a woken thread has strictly
higher priority than the running thread. -/
theorem c6_counterexample :
    (tickUpdate true
      { taskRunning := some ⟨1, 1, 0, Transition.none, Option.none, 0⟩,
        tasksReady := [[], [⟨2, 1, 0, Transition.none, Option.none, 0⟩]],
        tasksSleeping := [], tasksTerminated := [], events := [] } 5).2 = true ∧
    (tickMove 5
      (({ taskRunning := some ⟨1, 1, 0, Transition.none, Option.none, 0⟩,
          tasksReady := [[], [⟨2, 1, 0, Transition.none, Option.none, 0⟩]],
          tasksSleeping := [], tasksTerminated := [], events := [] } : Scheduler)).tasksSleeping).1 =
      [] := by
  refine ⟨rfl, rfl⟩

/-- The tick cursor loop is the takeWhile/dropWhile split at the first
thread with a later wake-up. -/
theorem tickMove_eq (now : Nat) (l : List TCB) :
    tickMove now l = (l.takeWhile (fun t => decide (t.nextWut ≤ now)),
                      l.dropWhile (fun t => decide (t.nextWut ≤ now))) := by
  induction l with
  | nil => rfl
  | cons t ts ih =>
    by_cases h : t.nextWut ≤ now
    · simp [tickMove, h, List.takeWhile_cons, List.dropWhile_cons, ih]
    · simp [tickMove, h, List.takeWhile_cons, List.dropWhile_cons]

/-- On a sleep queue sorted by wake-up time, stopping at the first later
wake-up moves exactly the due threads: the taken prefix is every thread
with nextWut ≤ now and the rest is every thread with nextWut > now. -/
theorem sorted_takeWhile_filter (now : Nat) (l : List TCB)
    (h : SortedByKey (fun t => t.nextWut) l) :
    l.takeWhile (fun t => decide (t.nextWut ≤ now)) =
      l.filter (fun t => decide (t.nextWut ≤ now)) ∧
    l.dropWhile (fun t => decide (t.nextWut ≤ now)) =
      l.filter (fun t => !decide (t.nextWut ≤ now)) := by
  induction l with
  | nil => exact ⟨rfl, rfl⟩
  | cons t ts ih =>
    rw [SortedByKey, List.pairwise_cons] at h
    obtain ⟨ht, hts⟩ := h
    by_cases hn : t.nextWut ≤ now
    · simp [List.takeWhile_cons, List.dropWhile_cons, List.filter_cons, hn,
        (ih hts).1, (ih hts).2]
    · have hall : ∀ u ∈ ts, ¬ u.nextWut ≤ now := fun u hu hc =>
        hn (Nat.le_trans (ht u hu) hc)
      have hfilter1 : ts.filter (fun t => decide (t.nextWut ≤ now)) = [] := by
        rw [List.filter_eq_nil_iff]
        intro u hu
        simpa using hall u hu
      have hfilter2 : ts.filter (fun t => !decide (t.nextWut ≤ now)) = ts := by
        rw [List.filter_eq_self]
        intro u hu
        simpa using hall u hu
      simp [List.takeWhile_cons, List.dropWhile_cons, List.filter_cons, hn,
        hfilter1, hfilter2]

/-- A thread found in the ready queues after a push_back was already there
or is the pushed thread. -/
theorem mem_pushBackAt (qs : List (List TCB)) (i : Nat) (t u : TCB) (q : List TCB)
    (hq : q ∈ pushBackAt qs i t) (hu : u ∈ q) :
    (∃ q0 ∈ qs, u ∈ q0) ∨ u = t := by
  rcases List.mem_or_eq_of_mem_set hq with hmem | heq
  · exact Or.inl ⟨q, hmem, hu⟩
  · subst heq
    rcases List.mem_append.mp hu with hin | hnew
    · by_cases hi : i < qs.length
      · refine Or.inl ⟨qs.getD i [], ?_, hin⟩
        rw [List.getD_eq_getElem?_getD, List.getElem?_eq_getElem hi]
        exact List.getElem_mem hi
      · rw [List.getD_eq_default _ _ (Nat.le_of_not_lt hi)] at hin
        exact absurd hin (List.not_mem_nil u)
    · exact Or.inr (List.mem_singleton.mp hnew)

/-- A thread found in the ready queues after the tick fold was already
ready or is one of the moved threads. -/
theorem mem_foldl_pushBackAt (moved : List TCB) (qs : List (List TCB)) (u : TCB)
    (q : List TCB)
    (hq : q ∈ moved.foldl (fun a t => pushBackAt a t.priority t) qs) (hu : u ∈ q) :
    (∃ q0 ∈ qs, u ∈ q0) ∨ u ∈ moved := by
  induction moved generalizing qs with
  | nil => exact Or.inl ⟨q, hq, hu⟩
  | cons m ms ih =>
    rcases ih (pushBackAt qs m.priority m) hq with hold | hmov
    · obtain ⟨q0, hq0, hu0⟩ := hold
      rcases mem_pushBackAt qs m.priority m u q0 hq0 hu0 with hold2 | heq
      · exact Or.inl hold2
      · exact Or.inr (heq ▸ List.mem_cons_self m ms)
    · exact Or.inr (List.mem_cons_of_mem m hmov)

/-- The picked thread comes from one of the ready queues. -/
theorem popFirstReady_mem (qs : List (List TCB)) (t : TCB) (qs' : List (List TCB))
    (h : popFirstReady qs = some (t, qs')) : ∃ q ∈ qs, t ∈ q := by
  obtain ⟨k, ts, _, hk, _⟩ := popFirstReady_spec qs t qs' h
  have hklen : k < qs.length := by
    by_contra hge
    push_neg at hge
    rw [List.getD_eq_default _ _ hge] at hk
    exact List.noConfusion hk
  refine ⟨qs.getD k [], ?_, by rw [hk]; exact List.mem_cons_self t ts⟩
  rw [List.getD_eq_getElem?_getD, List.getElem?_eq_getElem hklen]
  exact List.getElem_mem hklen

/-- One tick before the wake-up time keeps the sleeper asleep and keeps its
id out of every ready queue; sortedness and id-uniqueness of the sleep
queue are preserved. -/
theorem tickUpdate_keeps_sleeper (tsl : Bool) (s : Scheduler) (now : Nat) (x : TCB)
    (hsorted : SortedByKey (fun u => u.nextWut) s.tasksSleeping)
    (hx : x ∈ s.tasksSleeping)
    (huniq : ∀ u ∈ s.tasksSleeping, u.id = x.id → u = x)
    (hready : ∀ q ∈ s.tasksReady, ∀ u ∈ q, u.id ≠ x.id)
    (hlate : now < x.nextWut) :
    SortedByKey (fun u => u.nextWut) ((tickUpdate tsl s now).1).tasksSleeping ∧
    x ∈ ((tickUpdate tsl s now).1).tasksSleeping ∧
    (∀ u ∈ ((tickUpdate tsl s now).1).tasksSleeping, u.id = x.id → u = x) ∧
    (∀ q ∈ ((tickUpdate tsl s now).1).tasksReady, ∀ u ∈ q, u.id ≠ x.id) := by
  have hs2sleep : ((tickUpdate tsl s now).1).tasksSleeping =
      s.tasksSleeping.dropWhile (fun t => decide (t.nextWut ≤ now)) := by
    show (tickMove now s.tasksSleeping).2 = _
    rw [tickMove_eq]
  have hs2ready : ((tickUpdate tsl s now).1).tasksReady =
      (tickMove now s.tasksSleeping).1.foldl
        (fun a t => pushBackAt a t.priority t) s.tasksReady := rfl
  have hdropsub := List.dropWhile_sublist (l := s.tasksSleeping)
    (p := fun t => decide (t.nextWut ≤ now))
  refine ⟨?_, ?_, ?_, ?_⟩
  · rw [hs2sleep]
    exact List.Pairwise.sublist hdropsub hsorted
  · rw [hs2sleep]
    have hsplit := List.takeWhile_append_dropWhile
      (p := fun t => decide (t.nextWut ≤ now)) (l := s.tasksSleeping)
    rw [← hsplit] at hx
    rcases List.mem_append.mp hx with htake | hdrop
    · have := List.mem_takeWhile_imp htake
      simp at this
      omega
    · exact hdrop
  · intro u hu
    rw [hs2sleep] at hu
    exact huniq u (hdropsub.mem hu)
  · intro q hq u hu hid
    rw [hs2ready] at hq
    rcases mem_foldl_pushBackAt _ _ u q hq hu with hold | hmov
    · obtain ⟨q0, hq0, hu0⟩ := hold
      exact hready q0 hq0 u hu0 hid
    · rw [tickMove_eq] at hmov
      have hle := List.mem_takeWhile_imp hmov
      have humem : u ∈ s.tasksSleeping :=
        (List.takeWhile_sublist (p := fun (t : TCB) => decide (t.nextWut ≤ now))).mem hmov
      have := huniq u humem hid
      subst this
      simp at hle
      omega

/-- C6 amended.  sleep(n) at tick t sets the wake-up time to t + n and
marks the thread Sleeping; each tick moves exactly the sleeping threads
whose wake-up time has passed (the scan stops at the first later wake-up,
which on the sorted queue is exact); a switch is requested when a moved
thread has strictly higher priority than the running thread OR - with the
default time-slicing feature - when the ready queue of the running
priority is non-empty after the move and that priority is not 0; and over
any sequence of ticks all earlier than the wake-up time the thread stays
in the sleep queue, its id never enters a ready queue, and no ready pick
can return it. -/
theorem c6_sleep_not_selected (tsl : Bool) (s : Scheduler) (x : TCB) (times : List Nat)
    (hsorted : SortedByKey (fun u => u.nextWut) s.tasksSleeping)
    (hx : x ∈ s.tasksSleeping)
    (huniq : ∀ u ∈ s.tasksSleeping, u.id = x.id → u = x)
    (hready : ∀ q ∈ s.tasksReady, ∀ u ∈ q, u.id ≠ x.id)
    (htimes : ∀ m ∈ times, m < x.nextWut) :
    (∀ s3 : Scheduler, ∀ p : TCB, ∀ now ms : Nat, s3.taskRunning = some p →
      schedSleep s3 now ms = some
        { s3 with
          taskRunning := some ({ p with nextWut := now + ms, transition := Transition.sleeping }) }) ∧
    (∀ now : Nat, tickMove now s.tasksSleeping =
      (s.tasksSleeping.filter (fun t => decide (t.nextWut ≤ now)),
       s.tasksSleeping.filter (fun t => !decide (t.nextWut ≤ now)))) ∧
    (∀ s3 : Scheduler, ∀ now : Nat, (tickUpdate tsl s3 now).2 = true ↔
      ((∃ t ∈ (tickMove now s3.tasksSleeping).1, t.priority < runningPriority s3) ∨
        (tsl = true ∧
          0 < (((tickMove now s3.tasksSleeping).1.foldl
            (fun a t => pushBackAt a t.priority t) s3.tasksReady).getD
              (runningPriority s3) []).length ∧
          runningPriority s3 ≠ 0))) ∧
    (x ∈ (tickSeq tsl s times).tasksSleeping ∧
      (∀ q ∈ (tickSeq tsl s times).tasksReady, ∀ u ∈ q, u.id ≠ x.id) ∧
      (∀ y : TCB, ∀ qs2 : List (List TCB),
        popFirstReady (tickSeq tsl s times).tasksReady = some (y, qs2) → y.id ≠ x.id)) := by
  refine ⟨?_, ?_, ?_, ?_⟩
  · intro s3 p now ms hrun3
    simp [schedSleep, hrun3, runnableSleep]
  · intro now
    rw [tickMove_eq]
    rw [(sorted_takeWhile_filter now s.tasksSleeping hsorted).1,
      (sorted_takeWhile_filter now s.tasksSleeping hsorted).2]
  · intro s3 now
    simp only [tickUpdate, Bool.or_eq_true, Bool.and_eq_true, List.any_eq_true,
      decide_eq_true_eq, Bool.not_eq_true', beq_eq_false_iff_ne, ne_eq]
    constructor
    · rintro (h | ⟨⟨hts, hlen⟩, hne⟩)
      · exact Or.inl h
      · exact Or.inr ⟨hts, by simpa using hlen, hne⟩
    · rintro (h | ⟨hts, hlen, hne⟩)
      · exact Or.inl h
      · exact Or.inr ⟨⟨hts, by simpa using hlen⟩, hne⟩
  · induction times generalizing s with
    | nil =>
      refine ⟨hx, hready, ?_⟩
      intro y qs2 hpick hid
      obtain ⟨q, hq, hy⟩ := popFirstReady_mem _ y qs2 hpick
      exact hready q hq y hy hid
    | cons m ms ih =>
      have hm : m < x.nextWut := htimes m (List.mem_cons_self m ms)
      have hstep := tickUpdate_keeps_sleeper tsl s m x hsorted hx huniq hready hm
      exact ih (tickUpdate tsl s m).1 hstep.1 hstep.2.1 hstep.2.2.1 hstep.2.2.2
        (fun m2 hm2 => htimes m2 (List.mem_cons_of_mem m hm2))

/-- C6 witness: a thread sleeping until tick 10 survives ticks 3 and 7 in
the sleep queue. -/
theorem c6_sleep_not_selected_witness :
    (⟨5, 1, 10, Transition.none, Option.none, 0⟩ : TCB) ∈
      (tickSeq false
        { taskRunning := Option.none, tasksReady := [[], []],
          tasksSleeping := [⟨5, 1, 10, Transition.none, Option.none, 0⟩],
          tasksTerminated := [], events := [] } [3, 7]).tasksSleeping :=
  ((c6_sleep_not_selected false
    { taskRunning := Option.none, tasksReady := [[], []],
      tasksSleeping := [⟨5, 1, 10, Transition.none, Option.none, 0⟩],
      tasksTerminated := [], events := [] }
    ⟨5, 1, 10, Transition.none, Option.none, 0⟩ [3, 7]
    (List.pairwise_singleton _ _) (List.mem_singleton.mpr rfl)
    (by intro u hu h2; simpa using List.mem_singleton.mp hu)
    (by intro q hq u hu; rcases List.mem_cons.mp hq with h | h <;> simp_all)
    (by intro m hm; rcases List.mem_cons.mp hm with h | h <;> simp_all)).2.2.2).1

/- ===== C8: freelist heap (confirmed) ===== -/

/-- insert_free walks past every block of smaller or equal address, then
inserts the freed block, joined with the next block exactly when that block
starts where the freed one ends. -/
theorem insertFree_eq (b : FreeBlock) (l : List FreeBlock) :
    insertFree b l =
      l.takeWhile (fun d => !decide (b.addr < d.addr)) ++
        (match l.dropWhile (fun d => !decide (b.addr < d.addr)) with
         | [] => [b]
         | d :: rest =>
           if d.addr = b.addr + b.size then (⟨b.addr, b.size + d.size⟩ : FreeBlock) :: rest
           else b :: d :: rest) := by
  induction l with
  | nil => rfl
  | cons c rest ih =>
    by_cases h : b.addr < c.addr
    · have hpred : (!decide (b.addr < c.addr)) = false := by simp [h]
      by_cases h2 : c.addr = b.addr + b.size
      · rw [insertFree, if_pos h, if_pos h2]
        rw [List.takeWhile_cons, List.dropWhile_cons, hpred]
        simp [h2]
      · rw [insertFree, if_pos h, if_neg h2]
        rw [List.takeWhile_cons, List.dropWhile_cons, hpred]
        simp [h2]
    · have hpred : (!decide (b.addr < c.addr)) = true := by simp [h]
      rw [insertFree, if_neg h]
      rw [List.takeWhile_cons, List.dropWhile_cons, hpred]
      simp [ih]

/-- Every block in an insert_free result keeps an address that was already
present or is the freed block's address (joining keeps the left address). -/
theorem insertFree_mem_addr (b : FreeBlock) (l : List FreeBlock) (y : FreeBlock)
    (hy : y ∈ insertFree b l) : y.addr = b.addr ∨ ∃ z ∈ l, y.addr = z.addr := by
  induction l with
  | nil =>
    simp only [insertFree, List.mem_singleton] at hy
    exact Or.inl (by rw [hy])
  | cons c rest ih =>
    by_cases h : b.addr < c.addr
    · by_cases h2 : c.addr = b.addr + b.size
      · simp only [insertFree, if_pos h, if_pos h2, List.mem_cons] at hy
        rcases hy with hy | hy
        · exact Or.inl (by rw [hy])
        · exact Or.inr ⟨y, List.mem_cons_of_mem c hy, rfl⟩
      · simp only [insertFree, if_pos h, if_neg h2, List.mem_cons] at hy
        rcases hy with hy | hy | hy
        · exact Or.inl (by rw [hy])
        · exact Or.inr ⟨c, List.mem_cons_self c rest, by rw [hy]⟩
        · exact Or.inr ⟨y, List.mem_cons_of_mem c hy, rfl⟩
    · simp only [insertFree, if_neg h, List.mem_cons] at hy
      rcases hy with hy | hy
      · exact Or.inr ⟨c, List.mem_cons_self c rest, by rw [hy]⟩
      · rcases ih hy with h1 | ⟨z, hz, he⟩
        · exact Or.inl h1
        · exact Or.inr ⟨z, List.mem_cons_of_mem c hz, he⟩

/-- insert_free preserves a lower bound on the block sizes (joining only
grows a block). -/
theorem insertFree_min_size (b : FreeBlock) (l : List FreeBlock) (m : Nat)
    (hb : m ≤ b.size) (hl : ∀ z ∈ l, m ≤ z.size) :
    ∀ y ∈ insertFree b l, m ≤ y.size := by
  induction l with
  | nil =>
    intro y hy
    simp only [insertFree, List.mem_singleton] at hy
    rw [hy]
    exact hb
  | cons c rest ih =>
    intro y hy
    have hc : m ≤ c.size := hl c (List.mem_cons_self c rest)
    have hrest : ∀ z ∈ rest, m ≤ z.size := fun z hz => hl z (List.mem_cons_of_mem c hz)
    by_cases h : b.addr < c.addr
    · by_cases h2 : c.addr = b.addr + b.size
      · simp only [insertFree, if_pos h, if_pos h2, List.mem_cons] at hy
        rcases hy with hy | hy
        · rw [hy]
          exact Nat.le_trans hb (Nat.le_add_right _ _)
        · exact hrest y hy
      · simp only [insertFree, if_pos h, if_neg h2, List.mem_cons] at hy
        rcases hy with hy | hy | hy
        · rw [hy]; exact hb
        · rw [hy]; exact hc
        · exact hrest y hy
    · simp only [insertFree, if_neg h, List.mem_cons] at hy
      rcases hy with hy | hy
      · rw [hy]; exact hc
      · exact ih hrest y hy

/-- insert_free keeps the free list sorted by ascending address (the freed
block goes before the first block of strictly greater address). -/
theorem sortedByKey_insertFree (b : FreeBlock) (l : List FreeBlock)
    (h : SortedByKey (fun d => d.addr) l) :
    SortedByKey (fun d => d.addr) (insertFree b l) := by
  induction l with
  | nil => exact List.pairwise_singleton _ _
  | cons c rest ih =>
    rw [SortedByKey, List.pairwise_cons] at h
    obtain ⟨hc, hrest⟩ := h
    by_cases hlt : b.addr < c.addr
    · by_cases h2 : c.addr = b.addr + b.size
      · simp only [insertFree, if_pos hlt, if_pos h2]
        rw [SortedByKey, List.pairwise_cons]
        exact ⟨fun z hz => Nat.le_trans (Nat.le_of_lt hlt) (hc z hz), hrest⟩
      · simp only [insertFree, if_pos hlt, if_neg h2]
        rw [SortedByKey, List.pairwise_cons]
        refine ⟨?_, ?_⟩
        · intro z hz
          rcases List.mem_cons.mp hz with hz | hz
          · rw [hz]; exact Nat.le_of_lt hlt
          · exact Nat.le_trans (Nat.le_of_lt hlt) (hc z hz)
        · rw [List.pairwise_cons]
          exact ⟨hc, hrest⟩
    · simp only [insertFree, if_neg hlt]
      rw [SortedByKey, List.pairwise_cons]
      refine ⟨?_, ih hrest⟩
      intro z hz
      rcases insertFree_mem_addr b rest z hz with hz1 | ⟨w, hw, hz2⟩
      · rw [hz1]; exact Nat.le_of_not_lt hlt
      · rw [hz2]; exact hc w hw

/-- The first-fit scan decomposes the free list around the first fitting
block. -/
theorem findFit_spec (szReq : Nat) (l : List FreeBlock) :
    ∀ pre c suf, findFit szReq l = some (pre, c, suf) →
      l = pre ++ c :: suf ∧ fitsBlock szReq c = true ∧
        ∀ b ∈ pre, fitsBlock szReq b = false := by
  induction l with
  | nil => intro pre c suf h; simp [findFit] at h
  | cons c0 rest ih =>
    intro pre c suf h
    by_cases hf : fitsBlock szReq c0
    · rw [findFit, if_pos hf] at h
      simp only [Option.some.injEq, Prod.mk.injEq] at h
      obtain ⟨h1, h2, h3⟩ := h
      subst h1; subst h2; subst h3
      exact ⟨rfl, hf, by simp⟩
    · rw [findFit, if_neg hf] at h
      cases hr : findFit szReq rest with
      | none => rw [hr] at h; simp at h
      | some pcs =>
        obtain ⟨p1, c1, s1⟩ := pcs
        rw [hr] at h
        simp only [Option.map_some', Option.some.injEq, Prod.mk.injEq] at h
        obtain ⟨h1, h2, h3⟩ := h
        subst h1
        subst h2
        subst h3
        obtain ⟨hl, hfit2, hprefit⟩ := ih p1 c1 s1 hr
        refine ⟨by rw [hl]; rfl, hfit2, ?_⟩
        intro b hb
        rcases List.mem_cons.mp hb with hb | hb
        · rw [hb]
          exact Bool.of_not_eq_true hf
        · exact hprefit b hb

/-- C8.  With a fitting block available, Heap::alloc returns the start of
the first free block (in ascending address order, the free list being
address-sorted) that fits the minimum-adjusted request exactly or exceeds
it by at least a free node, splitting off and reinserting the remainder in
the latter case; Heap::dealloc inserts the freed block by ascending address
and joins it with the immediately following block exactly when adjacent;
and the minimum-size discipline holds: the adjusted request and every free
block before and after either operation are at least MIN_FREE_SIZE. -/
theorem c8_heap (free : List FreeBlock) (layoutSize : Nat) (pre : List FreeBlock)
    (c : FreeBlock) (suf : List FreeBlock)
    (hsz : layoutSize ≠ 0)
    (hfit : findFit (reqSize layoutSize) free = some (pre, c, suf))
    (hsorted : SortedByKey (fun d => d.addr) free)
    (hmin : ∀ z ∈ free, MIN_FREE_SIZE ≤ z.size) :
    heapAlloc free layoutSize =
      HeapResult.ok c.addr
        (if reqSize layoutSize < c.size then
          insertFree ⟨c.addr + reqSize layoutSize, c.size - reqSize layoutSize⟩ (pre ++ suf)
         else pre ++ suf) ∧
    free = pre ++ c :: suf ∧
    (∀ b ∈ pre, fitsBlock (reqSize layoutSize) b = false) ∧
    (∀ b ∈ free, fitsBlock (reqSize layoutSize) b = true → c.addr ≤ b.addr) ∧
    MIN_FREE_SIZE ≤ reqSize layoutSize ∧
    (∀ fr2 : List FreeBlock, heapAlloc free layoutSize = HeapResult.ok c.addr fr2 →
      ∀ z ∈ fr2, MIN_FREE_SIZE ≤ z.size) ∧
    (∀ b2 : FreeBlock, ∀ l2 : List FreeBlock,
      insertFree b2 l2 =
        l2.takeWhile (fun d => !decide (b2.addr < d.addr)) ++
          (match l2.dropWhile (fun d => !decide (b2.addr < d.addr)) with
           | [] => [b2]
           | d :: rest =>
             if d.addr = b2.addr + b2.size then (⟨b2.addr, b2.size + d.size⟩ : FreeBlock) :: rest
             else b2 :: d :: rest)) ∧
    (∀ addr2 lsz2 : Nat, SortedByKey (fun d => d.addr) (heapDealloc free addr2 lsz2)) ∧
    (∀ addr2 lsz2 : Nat, ∀ z ∈ heapDealloc free addr2 lsz2, MIN_FREE_SIZE ≤ z.size) := by
  obtain ⟨hdecomp, hcfit, hprefit⟩ := findFit_spec (reqSize layoutSize) free pre c suf hfit
  have hreq : MIN_FREE_SIZE ≤ reqSize layoutSize := by
    rw [reqSize]
    split
    · exact Nat.le_refl _
    · omega
  have halloc : heapAlloc free layoutSize =
      HeapResult.ok c.addr
        (if reqSize layoutSize < c.size then
          insertFree ⟨c.addr + reqSize layoutSize, c.size - reqSize layoutSize⟩ (pre ++ suf)
         else pre ++ suf) := by
    rw [heapAlloc, if_neg hsz]
    simp only [hfit]
    split <;> rfl
  have hmemrest : ∀ z ∈ pre ++ suf, z ∈ free := by
    intro z hz
    rw [hdecomp]
    rcases List.mem_append.mp hz with hz | hz
    · exact List.mem_append.mpr (Or.inl hz)
    · exact List.mem_append.mpr (Or.inr (List.mem_cons_of_mem c hz))
  refine ⟨halloc, hdecomp, hprefit, ?_, hreq, ?_, insertFree_eq, ?_, ?_⟩
  · intro b hb hbfit
    rw [hdecomp] at hb
    rcases List.mem_append.mp hb with hb | hb
    · rw [hprefit b hb] at hbfit
      exact absurd hbfit (by simp)
    · rcases List.mem_cons.mp hb with hb | hb
      · rw [hb]
      · rw [hdecomp] at hsorted
        have hcs : SortedByKey (fun d => d.addr) (c :: suf) :=
          List.Pairwise.sublist (List.sublist_append_right pre (c :: suf)) hsorted
        rw [SortedByKey, List.pairwise_cons] at hcs
        exact hcs.1 b hb
  · intro fr2 hfr2
    rw [halloc] at hfr2
    have hfr2' : fr2 =
        (if reqSize layoutSize < c.size then
          insertFree ⟨c.addr + reqSize layoutSize, c.size - reqSize layoutSize⟩ (pre ++ suf)
         else pre ++ suf) := by
      injection hfr2 with h1 h2
      exact h2.symm
    rw [hfr2']
    split
    · rename_i hsplit
      apply insertFree_min_size
      · have : fitsBlock (reqSize layoutSize) c = true := hcfit
        rw [fitsBlock, Bool.or_eq_true, beq_iff_eq, decide_eq_true_eq] at this
        rcases this with hcase | hcase
        · omega
        · simp only
          omega
      · intro z hz
        exact hmin z (hmemrest z hz)
    · intro z hz
      exact hmin z (hmemrest z hz)
  · intro addr2 lsz2
    exact sortedByKey_insertFree _ free hsorted
  · intro addr2 lsz2 z hz
    apply insertFree_min_size _ free MIN_FREE_SIZE _ hmin z hz
    show MIN_FREE_SIZE ≤ reqSize lsz2
    rw [reqSize]
    split
    · exact Nat.le_refl _
    · omega

/-- C8 witness: a 24-byte free block serves an 8-byte request (adjusted to
12); the 12-byte remainder is split off and reinserted. -/
theorem c8_heap_witness :
    heapAlloc [⟨100, 24⟩] 8 = HeapResult.ok 100 [⟨112, 12⟩] :=
  ((c8_heap [⟨100, 24⟩] 8 [] ⟨100, 24⟩ [] (by decide) (by decide)
    (List.pairwise_singleton _ _) (by decide)).1).trans (by decide)

end BernRtos
